import Mathlib

set_option maxHeartbeats 2000000
set_option maxRecDepth 8000

/-!
Verification of the text-processing core of `pdf_requirements_parser.py`.

Text is modelled as `List Char`; each Python function of the core pipeline is
translated into an executable Lean definition, and the behavioural claims of
the specification are proved or refuted against those definitions.
-/

/-- Python's default whitespace set for `str.strip` / `str.split` / `\s`
(ASCII fragment, which is all the source ever feeds it). -/
def wsChar (c : Char) : Bool :=
  c = ' ' || c = '\t' || c = '\n' || c = '\r' || c = '\x0b' || c = '\x0c'

/-- Python `str.strip()` : drop leading and trailing whitespace. -/
def pystripL (s : List Char) : List Char :=
  ((s.dropWhile wsChar).reverse.dropWhile wsChar).reverse

/-- Does `w` occur as a contiguous substring of `s`? (Python `w in s`.) -/
def hasSubstr (w : List Char) : List Char → Bool
  | [] => w.isEmpty
  | c :: rest => w.isPrefixOf (c :: rest) || hasSubstr w rest

/-- The literal `"Commented ["` that starts every inline comment marker. -/
def litCommented : List Char :=
  ['C', 'o', 'm', 'm', 'e', 'n', 't', 'e', 'd', ' ', '[']

/-- Tail of a match of `\]:[^\n]+` : after the bracket content we need `]`,
then `:`, then at least one non-newline character; the match is greedy up to
the end of the line.  Returns the unconsumed suffix. -/
def matchColonTail : List Char → Option (List Char)
  | ':' :: r4 =>
      if (r4.takeWhile (fun c => c ≠ '\n')).isEmpty then none
      else some (r4.dropWhile (fun c => c ≠ '\n'))
  | _ => none

/-- Combine the bracket content (must be non-empty) with the closing-bracket
suffix for the full-marker pattern. -/
def matchAfterTag : List Char → List Char → Option (List Char)
  | _ :: _, ']' :: r3 => matchColonTail r3
  | _, _ => none

/-- Leftmost-match attempt of the regex `Commented \[[^\]]+\]:[^\n]+` at the
head of `s` (the pattern of the first `re.sub` in `_remove_inline_comments`).
Returns the suffix following the match when it succeeds. -/
def matchFull (s : List Char) : Option (List Char) :=
  if litCommented.isPrefixOf s then
    matchAfterTag
      ((s.drop litCommented.length).takeWhile (fun c => c ≠ ']'))
      ((s.drop litCommented.length).dropWhile (fun c => c ≠ ']'))
  else none

/-- Tail of the bare-tag pattern: non-empty bracket content and the closing
bracket; returns what follows the `]`. -/
def matchBareTail : List Char → List Char → Option (List Char)
  | _ :: _, ']' :: r3 => some r3
  | _, _ => none

/-- Match attempt of the bare-tag regex `Commented \[[^\]]+\]` at the head of
`s` (pattern of the second `re.sub` in `_remove_inline_comments`). -/
def matchBare (s : List Char) : Option (List Char) :=
  if litCommented.isPrefixOf s then
    matchBareTail
      ((s.drop litCommented.length).takeWhile (fun c => c ≠ ']'))
      ((s.drop litCommented.length).dropWhile (fun c => c ≠ ']'))
  else none

/-- Fuel-indexed left-to-right scan of `re.sub(full-marker-pattern, '', ·)`:
at every position try the pattern; on a match emit nothing and resume after
the match, otherwise keep the character. -/
def subFullAux : Nat → List Char → List Char
  | 0, _ => []
  | _ + 1, [] => []
  | fuel + 1, c :: rest =>
      match matchFull (c :: rest) with
      | some after => subFullAux fuel after
      | none => c :: subFullAux fuel rest

/-- The pass `re.sub(r'Commented \[[^\]]+\]:[^\n]+', '', s)`. -/
def subFullMarkers (s : List Char) : List Char := subFullAux s.length s

/-- Fuel-indexed scan of `re.sub(bare-tag-pattern, '', ·)`. -/
def subBareAux : Nat → List Char → List Char
  | 0, _ => []
  | _ + 1, [] => []
  | fuel + 1, c :: rest =>
      match matchBare (c :: rest) with
      | some after => subBareAux fuel after
      | none => c :: subBareAux fuel rest

/-- The pass `re.sub(r'Commented \[[^\]]+\]', '', s)`. -/
def subBareTags (s : List Char) : List Char := subBareAux s.length s

/-- Fuel-indexed scan of `re.sub(r'\n{3,}', '\n\n', ·)`: a maximal run of
`k ≥ 3` newlines becomes two newlines, shorter runs are copied. -/
def collapseAux : Nat → List Char → List Char
  | 0, _ => []
  | _ + 1, [] => []
  | fuel + 1, c :: rest =>
      if c = '\n' then
        (if 3 ≤ (rest.takeWhile (fun x => x = '\n')).length + 1 then
           ['\n', '\n']
         else
           List.replicate ((rest.takeWhile (fun x => x = '\n')).length + 1) '\n') ++
        collapseAux fuel (rest.dropWhile (fun x => x = '\n'))
      else c :: collapseAux fuel rest

/-- The pass `re.sub(r'\n{3,}', '\n\n', s)`. -/
def collapseNL (s : List Char) : List Char := collapseAux s.length s

/-- Python `_remove_inline_comments`: remove full markers, then bare tags, collapse
runs of 3+ newlines to two, and strip the result. -/
def removeInlineComments (t : List Char) : List Char :=
  pystripL (collapseNL (subBareTags (subFullMarkers t)))

/-- Does the marker pattern `Commented \[[^\]]+\]:` match at the head of `s`?
(The "literal keyword, bracketed identifier, colon" pattern of the spec.) -/
def markerAt (s : List Char) : Bool :=
  litCommented.isPrefixOf s &&
  !((s.drop litCommented.length).takeWhile (fun c => c ≠ ']')).isEmpty &&
  (match (s.drop litCommented.length).dropWhile (fun c => c ≠ ']') with
   | ']' :: ':' :: _ => true
   | _ => false)

/-- Does `s` contain a substring matching the inline comment-marker pattern? -/
def hasMarker : List Char → Bool
  | [] => false
  | c :: rest => markerAt (c :: rest) || hasMarker rest

/-- Every occurrence of `Commented [` in `s` begins a full marker accepted by
the removal pattern (non-empty bracket content closed by `]`, a colon, and at
least one same-line trailing character). -/
def goodTags : List Char → Bool
  | [] => true
  | c :: rest =>
      (!(litCommented.isPrefixOf (c :: rest)) || (matchFull (c :: rest)).isSome) &&
      goodTags rest

-- ### Basic facts about the matchers

theorem dropWhile_head_false {α : Type} {p : α → Bool} {l : List α} {a : α} {u : List α}
    (h : l.dropWhile p = a :: u) : p a = false := by
  induction l with
  | nil => simp [List.dropWhile] at h
  | cons c cs ih =>
    rw [List.dropWhile_cons] at h
    split at h
    · exact ih h
    · next hc => rw [List.cons.injEq] at h; rw [← h.1]; simpa using hc

theorem matchColonTail_none_of_ne {c : Char} {r4 : List Char} (hc : c ≠ ':') :
    matchColonTail (c :: r4) = none := by
  unfold matchColonTail
  split
  next h2 => rw [List.cons.injEq] at h2; exact absurd h2.1 hc
  next => rfl

theorem matchColonTail_length {r t : List Char} (h : matchColonTail r = some t) :
    t.length + 1 ≤ r.length := by
  match r with
  | [] => simp [matchColonTail] at h
  | c :: r4 =>
    by_cases hc : c = ':'
    · subst hc
      simp only [matchColonTail] at h
      split at h
      · exact absurd h (by simp)
      · simp only [Option.some.injEq] at h
        subst h
        have := (List.dropWhile_suffix (l := r4) (fun c => decide (c ≠ '\n'))).length_le
        simp only [List.length_cons]
        omega
    · rw [matchColonTail_none_of_ne hc] at h
      exact absurd h (by simp)

theorem matchColonTail_shape {r t : List Char} (h : matchColonTail r = some t) :
    t = [] ∨ ∃ u, t = '\n' :: u := by
  match r with
  | [] => simp [matchColonTail] at h
  | c :: r4 =>
    by_cases hc : c = ':'
    · subst hc
      simp only [matchColonTail] at h
      split at h
      · exact absurd h (by simp)
      · simp only [Option.some.injEq] at h
        subst h
        rcases hd : r4.dropWhile (fun c => decide (c ≠ '\n')) with _ | ⟨a, u⟩
        · exact Or.inl rfl
        · right
          refine ⟨u, ?_⟩
          have ha := dropWhile_head_false hd
          simp at ha
          rw [ha]
    · rw [matchColonTail_none_of_ne hc] at h
      exact absurd h (by simp)

theorem matchColonTail_suffix {r t : List Char} (h : matchColonTail r = some t) :
    t <:+ r := by
  match r with
  | [] => simp [matchColonTail] at h
  | c :: r4 =>
    by_cases hc : c = ':'
    · subst hc
      simp only [matchColonTail] at h
      split at h
      · exact absurd h (by simp)
      · simp only [Option.some.injEq] at h
        subst h
        exact (List.dropWhile_suffix _).trans (List.suffix_cons _ _)
    · rw [matchColonTail_none_of_ne hc] at h
      exact absurd h (by simp)


theorem matchAfterTag_inv {tag r2 t : List Char} (h : matchAfterTag tag r2 = some t) :
    ∃ a tg r3, tag = a :: tg ∧ r2 = ']' :: r3 ∧ matchColonTail r3 = some t := by
  unfold matchAfterTag at h
  split at h
  · exact ⟨_, _, _, rfl, rfl, h⟩
  · simp at h

theorem matchAfterTag_length {tag r2 t : List Char} (h : matchAfterTag tag r2 = some t) :
    t.length + 2 ≤ r2.length := by
  obtain ⟨a, tg, r3, -, rfl, hct⟩ := matchAfterTag_inv h
  have := matchColonTail_length hct
  simp only [List.length_cons]
  omega

theorem matchAfterTag_suffix {tag r2 t : List Char} (h : matchAfterTag tag r2 = some t) :
    t <:+ r2 := by
  obtain ⟨a, tg, r3, -, rfl, hct⟩ := matchAfterTag_inv h
  exact (matchColonTail_suffix hct).trans (List.suffix_cons _ _)

theorem matchAfterTag_shape {tag r2 t : List Char} (h : matchAfterTag tag r2 = some t) :
    t = [] ∨ ∃ u, t = '\n' :: u := by
  obtain ⟨a, tg, r3, -, rfl, hct⟩ := matchAfterTag_inv h
  exact matchColonTail_shape hct

theorem matchBareTail_inv {tag r2 t : List Char} (h : matchBareTail tag r2 = some t) :
    ∃ a tg, tag = a :: tg ∧ r2 = ']' :: t := by
  unfold matchBareTail at h
  split at h
  · simp only [Option.some.injEq] at h
    subst h
    exact ⟨_, _, rfl, rfl⟩
  · simp at h

theorem matchFull_isPre {s t : List Char} (h : matchFull s = some t) :
    litCommented.isPrefixOf s = true := by
  unfold matchFull at h
  split at h
  · assumption
  · exact absurd h (by simp)

theorem matchFull_length {s t : List Char} (h : matchFull s = some t) :
    t.length < s.length := by
  have hp := matchFull_isPre h
  have hlen : litCommented.length ≤ s.length := by
    have hp2 := List.isPrefixOf_iff_prefix.mp hp
    exact hp2.length_le
  unfold matchFull at h
  rw [if_pos hp] at h
  have h2 := matchAfterTag_length h
  have h3 := (List.dropWhile_suffix (l := s.drop litCommented.length)
    (fun c => decide (c ≠ ']'))).length_le
  rw [List.length_drop] at h3
  simp only [litCommented, List.length_cons, List.length_nil] at hlen h2 h3 ⊢
  omega

theorem matchFull_suffix {s t : List Char} (h : matchFull s = some t) :
    t <:+ s := by
  have hp := matchFull_isPre h
  unfold matchFull at h
  rw [if_pos hp] at h
  exact ((matchAfterTag_suffix h).trans (List.dropWhile_suffix _)).trans
    (List.drop_suffix _ _)

theorem matchFull_shape {s t : List Char} (h : matchFull s = some t) :
    t = [] ∨ ∃ u, t = '\n' :: u := by
  have hp := matchFull_isPre h
  unfold matchFull at h
  rw [if_pos hp] at h
  exact matchAfterTag_shape h

theorem matchBare_isPre {s t : List Char} (h : matchBare s = some t) :
    litCommented.isPrefixOf s = true := by
  unfold matchBare at h
  split at h
  · assumption
  · exact absurd h (by simp)

theorem matchBare_length {s t : List Char} (h : matchBare s = some t) :
    t.length < s.length := by
  have hp := matchBare_isPre h
  have hlen : litCommented.length ≤ s.length := by
    have hp2 := List.isPrefixOf_iff_prefix.mp hp
    exact hp2.length_le
  unfold matchBare at h
  rw [if_pos hp] at h
  obtain ⟨a, tg, -, heq⟩ := matchBareTail_inv h
  have h3 := (List.dropWhile_suffix (l := s.drop litCommented.length)
    (fun c => decide (c ≠ ']'))).length_le
  rw [List.length_drop, heq] at h3
  simp only [litCommented, List.length_cons, List.length_nil] at hlen ⊢
  simp only [List.length_cons] at h3
  omega

-- ### Fuel adequacy and unfolding equations for the substitution scanners

theorem subFullAux_congr :
    ∀ n s f1 f2, s.length ≤ n → s.length ≤ f1 → s.length ≤ f2 →
      subFullAux f1 s = subFullAux f2 s := by
  intro n
  induction n with
  | zero =>
    intro s f1 f2 hn _ _
    have : s = [] := List.length_eq_zero.mp (Nat.le_zero.mp hn)
    subst this
    cases f1 <;> cases f2 <;> rfl
  | succ n ih =>
    intro s f1 f2 hn h1 h2
    match s with
    | [] => cases f1 <;> cases f2 <;> rfl
    | c :: rest =>
      simp only [List.length_cons] at hn h1 h2
      match f1, f2 with
      | g1 + 1, g2 + 1 =>
        simp only [subFullAux]
        cases hm : matchFull (c :: rest) with
        | some after =>
          have hl := matchFull_length hm
          simp only [List.length_cons] at hl
          exact ih after g1 g2 (by omega) (by omega) (by omega)
        | none =>
          rw [ih rest g1 g2 (by omega) (by omega) (by omega)]

theorem subFull_nil : subFullMarkers [] = [] := rfl

theorem subFull_cons_match {c : Char} {rest after : List Char}
    (hm : matchFull (c :: rest) = some after) :
    subFullMarkers (c :: rest) = subFullMarkers after := by
  unfold subFullMarkers
  simp only [List.length_cons, subFullAux, hm]
  have hl := matchFull_length hm
  simp only [List.length_cons] at hl
  exact subFullAux_congr after.length after rest.length after.length le_rfl (by omega) le_rfl

theorem subFull_cons_nomatch {c : Char} {rest : List Char}
    (hm : matchFull (c :: rest) = none) :
    subFullMarkers (c :: rest) = c :: subFullMarkers rest := by
  unfold subFullMarkers
  simp only [List.length_cons, subFullAux, hm]

theorem subBareAux_congr :
    ∀ n s f1 f2, s.length ≤ n → s.length ≤ f1 → s.length ≤ f2 →
      subBareAux f1 s = subBareAux f2 s := by
  intro n
  induction n with
  | zero =>
    intro s f1 f2 hn _ _
    have : s = [] := List.length_eq_zero.mp (Nat.le_zero.mp hn)
    subst this
    cases f1 <;> cases f2 <;> rfl
  | succ n ih =>
    intro s f1 f2 hn h1 h2
    match s with
    | [] => cases f1 <;> cases f2 <;> rfl
    | c :: rest =>
      simp only [List.length_cons] at hn h1 h2
      match f1, f2 with
      | g1 + 1, g2 + 1 =>
        simp only [subBareAux]
        cases hm : matchBare (c :: rest) with
        | some after =>
          have hl := matchBare_length hm
          simp only [List.length_cons] at hl
          exact ih after g1 g2 (by omega) (by omega) (by omega)
        | none =>
          rw [ih rest g1 g2 (by omega) (by omega) (by omega)]

theorem subBare_nil : subBareTags [] = [] := rfl

theorem subBare_cons_match {c : Char} {rest after : List Char}
    (hm : matchBare (c :: rest) = some after) :
    subBareTags (c :: rest) = subBareTags after := by
  unfold subBareTags
  simp only [List.length_cons, subBareAux, hm]
  have hl := matchBare_length hm
  simp only [List.length_cons] at hl
  exact subBareAux_congr after.length after rest.length after.length le_rfl (by omega) le_rfl

theorem subBare_cons_nomatch {c : Char} {rest : List Char}
    (hm : matchBare (c :: rest) = none) :
    subBareTags (c :: rest) = c :: subBareTags rest := by
  unfold subBareTags
  simp only [List.length_cons, subBareAux, hm]

theorem collapseAux_congr :
    ∀ n s f1 f2, s.length ≤ n → s.length ≤ f1 → s.length ≤ f2 →
      collapseAux f1 s = collapseAux f2 s := by
  intro n
  induction n with
  | zero =>
    intro s f1 f2 hn _ _
    have : s = [] := List.length_eq_zero.mp (Nat.le_zero.mp hn)
    subst this
    cases f1 <;> cases f2 <;> rfl
  | succ n ih =>
    intro s f1 f2 hn h1 h2
    match s with
    | [] => cases f1 <;> cases f2 <;> rfl
    | c :: rest =>
      simp only [List.length_cons] at hn h1 h2
      match f1, f2 with
      | g1 + 1, g2 + 1 =>
        simp only [collapseAux]
        by_cases hc : c = '\n'
        · rw [if_pos hc, if_pos hc]
          have hd := (List.dropWhile_suffix (l := rest) (fun x => decide (x = '\n'))).length_le
          rw [ih (rest.dropWhile (fun x => decide (x = '\n'))) g1 g2
            (by omega) (by omega) (by omega)]
        · rw [if_neg hc, if_neg hc, ih rest g1 g2 (by omega) (by omega) (by omega)]

theorem collapse_nil : collapseNL [] = [] := rfl

theorem collapse_cons_nl (rest : List Char) :
    collapseNL ('\n' :: rest) =
      (if 3 ≤ (rest.takeWhile (fun x => x = '\n')).length + 1 then
         ['\n', '\n']
       else
         List.replicate ((rest.takeWhile (fun x => x = '\n')).length + 1) '\n') ++
      collapseNL (rest.dropWhile (fun x => x = '\n')) := by
  unfold collapseNL
  simp only [List.length_cons, collapseAux, if_pos rfl, if_true]
  congr 1
  have hd := (List.dropWhile_suffix (l := rest) (fun x => decide (x = '\n'))).length_le
  exact collapseAux_congr rest.length _ rest.length _ hd hd le_rfl

theorem collapse_cons {c : Char} (rest : List Char) (hc : c ≠ '\n') :
    collapseNL (c :: rest) = c :: collapseNL rest := by
  unfold collapseNL
  simp only [List.length_cons, collapseAux, if_neg hc]

-- ### Substring machinery

theorem isPrefixOf_nil_inv {w : List Char} (h : w.isPrefixOf ([] : List Char) = true) :
    w = [] := by
  cases w with
  | nil => rfl
  | cons a w2 => simp [List.isPrefixOf] at h

theorem isPrefixOf_cons_inv {w : List Char} {c : Char} {X : List Char}
    (h : w.isPrefixOf (c :: X) = true) :
    w = [] ∨ ∃ w2, w = c :: w2 ∧ w2.isPrefixOf X = true := by
  cases w with
  | nil => exact Or.inl rfl
  | cons a w2 =>
    right
    simp only [List.isPrefixOf, Bool.and_eq_true, beq_iff_eq] at h
    exact ⟨w2, by rw [h.1], h.2⟩

theorem isPrefixOf_cons_mk {w2 : List Char} {c : Char} {X : List Char}
    (h : w2.isPrefixOf X = true) : (c :: w2).isPrefixOf (c :: X) = true := by
  simp [List.isPrefixOf, h]

theorem hasSubstr_nil_pat (s : List Char) : hasSubstr [] s = true := by
  cases s <;> simp [hasSubstr, List.isPrefixOf]

theorem hasSubstr_append_right {w : List Char} (u : List Char) {t : List Char}
    (h : hasSubstr w t = true) : hasSubstr w (u ++ t) = true := by
  induction u with
  | nil => simpa using h
  | cons a u2 ih => simp only [List.cons_append, hasSubstr, Bool.or_eq_true]; exact Or.inr ih

theorem hasSubstr_append_left {w t : List Char} (v : List Char)
    (h : hasSubstr w t = true) : hasSubstr w (t ++ v) = true := by
  induction t with
  | nil =>
    simp only [hasSubstr, List.isEmpty_iff] at h
    subst h
    simpa using hasSubstr_nil_pat v
  | cons a t2 ih =>
    simp only [hasSubstr, Bool.or_eq_true] at h ⊢
    rcases h with h | h
    · left
      rcases isPrefixOf_cons_inv h with rfl | ⟨w2, rfl, hw2⟩
      · cases (a :: t2 ++ v) <;> simp [List.isPrefixOf]
      · exact isPrefixOf_cons_mk (by
          rcases List.isPrefixOf_iff_prefix.mp hw2 with ⟨r, hr⟩
          exact List.isPrefixOf_iff_prefix.mpr ⟨r ++ v, by rw [← List.append_assoc, hr]; rfl⟩)
    · exact Or.inr (ih h)

theorem hasSubstr_of_suffix {w t s : List Char} (hsuf : t <:+ s)
    (h : hasSubstr w t = true) : hasSubstr w s = true := by
  obtain ⟨u, rfl⟩ := hsuf
  exact hasSubstr_append_right u h

theorem hasSubstr_of_mid {w t s : List Char} (hinf : t <:+: s)
    (h : hasSubstr w t = true) : hasSubstr w s = true := by
  obtain ⟨u, v, rfl⟩ := hinf
  rw [List.append_assoc]
  exact hasSubstr_append_right u (hasSubstr_append_left v h)

theorem hasSubstr_dropWhile_false {w : List Char} {p : Char → Bool} {l : List Char}
    (h : hasSubstr w l = false) : hasSubstr w (l.dropWhile p) = false := by
  by_contra hne
  rw [Bool.not_eq_false] at hne
  rw [hasSubstr_of_suffix (List.dropWhile_suffix p) hne] at h
  exact absurd h (by simp)

theorem pystripL_mid (s : List Char) : pystripL s <:+: s := by
  unfold pystripL
  have h1 : s.dropWhile wsChar <:+ s := List.dropWhile_suffix wsChar
  have h2 : ((s.dropWhile wsChar).reverse.dropWhile wsChar).reverse <+: s.dropWhile wsChar := by
    have h3 : ((s.dropWhile wsChar).reverse.dropWhile wsChar).reverse.reverse <:+
        (s.dropWhile wsChar).reverse := by
      rw [List.reverse_reverse]
      exact List.dropWhile_suffix wsChar
    rw [List.reverse_suffix] at h3
    exact h3
  have h3 := List.IsPrefix.isInfix h2
  have h4 := List.IsSuffix.isInfix h1
  exact h3.trans h4

theorem hasSubstr_pystripL_false {w s : List Char}
    (h : hasSubstr w s = false) : hasSubstr w (pystripL s) = false := by
  by_contra hne
  rw [Bool.not_eq_false] at hne
  rw [hasSubstr_of_mid (pystripL_mid s) hne] at h
  exact absurd h (by simp)

-- ### The good-tags invariant and marker non-creation

theorem matchFull_head_ne {c : Char} {rest : List Char} (hc : c ≠ 'C') :
    matchFull (c :: rest) = none := by
  unfold matchFull
  rw [if_neg]
  simp only [litCommented, List.isPrefixOf, Bool.and_eq_true, beq_iff_eq]
  intro hcon
  exact hc hcon.1.symm

theorem goodTags_tail {c : Char} {rest : List Char} (h : goodTags (c :: rest) = true) :
    goodTags rest = true := by
  simp only [goodTags, Bool.and_eq_true] at h
  exact h.2

theorem goodTags_suffix {t s : List Char} (hsuf : t <:+ s) (h : goodTags s = true) :
    goodTags t = true := by
  induction s with
  | nil =>
    rw [List.suffix_nil] at hsuf
    subst hsuf
    rfl
  | cons c rest ih =>
    rcases List.suffix_cons_iff.mp hsuf with rfl | h2
    · exact h
    · exact ih h2 (goodTags_tail h)

theorem goodTags_matchFull {s : List Char} (hg : goodTags s = true)
    (hp : litCommented.isPrefixOf s = true) : (matchFull s).isSome = true := by
  cases s with
  | nil => simp [litCommented, List.isPrefixOf] at hp
  | cons c rest =>
    simp only [goodTags, Bool.and_eq_true, Bool.or_eq_true] at hg
    rcases hg.1 with h | h
    · rw [hp] at h
      simp at h
    · exact h

theorem prefix_subFull :
    ∀ (n : Nat) (t w : List Char), t.length ≤ n → ('\n' ∉ w) →
      w.isPrefixOf (subFullMarkers t) = true → w.isPrefixOf t = true := by
  intro n
  induction n with
  | zero =>
    intro t w hn _ hpre
    have : t = [] := List.length_eq_zero.mp (Nat.le_zero.mp hn)
    subst this
    rw [subFull_nil] at hpre
    rw [isPrefixOf_nil_inv hpre]
    rfl
  | succ n ih =>
    intro t w hn hw hpre
    match t with
    | [] =>
      rw [subFull_nil] at hpre
      rw [isPrefixOf_nil_inv hpre]
      rfl
    | c :: rest =>
      simp only [List.length_cons] at hn
      cases hm : matchFull (c :: rest) with
      | some after =>
        rw [subFull_cons_match hm] at hpre
        rcases matchFull_shape hm with rfl | ⟨u, rfl⟩
        · rw [subFull_nil] at hpre
          rw [isPrefixOf_nil_inv hpre]
          rfl
        · rw [subFull_cons_nomatch (matchFull_head_ne (by decide))] at hpre
          rcases isPrefixOf_cons_inv hpre with rfl | ⟨w2, rfl, -⟩
          · rfl
          · exact absurd (List.mem_cons_self _ _) hw
      | none =>
        rw [subFull_cons_nomatch hm] at hpre
        rcases isPrefixOf_cons_inv hpre with rfl | ⟨w2, rfl, hw2⟩
        · rfl
        · have : w2.isPrefixOf rest = true := by
            refine ih rest w2 (by omega) (fun hmem => hw (List.mem_cons_of_mem _ hmem)) hw2
          exact isPrefixOf_cons_mk this

theorem subFull_no_cb :
    ∀ (n : Nat) (t : List Char), t.length ≤ n → goodTags t = true →
      hasSubstr litCommented (subFullMarkers t) = false := by
  intro n
  induction n with
  | zero =>
    intro t hn _
    have : t = [] := List.length_eq_zero.mp (Nat.le_zero.mp hn)
    subst this
    rfl
  | succ n ih =>
    intro t hn hg
    match t with
    | [] => rfl
    | c :: rest =>
      simp only [List.length_cons] at hn
      cases hm : matchFull (c :: rest) with
      | some after =>
        rw [subFull_cons_match hm]
        have hl := matchFull_length hm
        simp only [List.length_cons] at hl
        exact ih after (by omega) (goodTags_suffix (matchFull_suffix hm) hg)
      | none =>
        rw [subFull_cons_nomatch hm]
        simp only [hasSubstr, Bool.or_eq_false_iff]
        constructor
        · by_contra hpre
          rw [Bool.not_eq_false] at hpre
          rcases isPrefixOf_cons_inv hpre with habs | ⟨w2, hlit, hw2⟩
          · simp [litCommented] at habs
          · have hc : c = 'C' := by
              have h0 : litCommented.headI = 'C' := rfl
              rw [hlit] at h0
              simpa using h0
            have hw2rest : w2.isPrefixOf rest = true := by
              refine prefix_subFull rest.length rest w2 le_rfl ?_ hw2
              intro hmem
              have : '\n' ∈ litCommented := by rw [hlit]; exact List.mem_cons_of_mem _ hmem
              simp [litCommented] at this
            have hlitpre : litCommented.isPrefixOf (c :: rest) = true := by
              rw [hlit, hc]
              exact isPrefixOf_cons_mk hw2rest
            have := goodTags_matchFull hg hlitpre
            rw [hm] at this
            simp at this
        · exact ih rest (by omega) (goodTags_tail hg)

theorem subBare_id_of_no_cb {u : List Char}
    (h : hasSubstr litCommented u = false) : subBareTags u = u := by
  induction u with
  | nil => rfl
  | cons c rest ih =>
    simp only [hasSubstr, Bool.or_eq_false_iff] at h
    cases hm : matchBare (c :: rest) with
    | some after =>
      have := matchBare_isPre hm
      rw [this] at h
      simp at h
    | none =>
      rw [subBare_cons_nomatch hm, ih h.2]

theorem prefix_collapse :
    ∀ (n : Nat) (s w : List Char), s.length ≤ n → ('\n' ∉ w) →
      w.isPrefixOf (collapseNL s) = true → w.isPrefixOf s = true := by
  intro n
  induction n with
  | zero =>
    intro s w hn _ hpre
    have : s = [] := List.length_eq_zero.mp (Nat.le_zero.mp hn)
    subst this
    rw [collapse_nil] at hpre
    rw [isPrefixOf_nil_inv hpre]
    rfl
  | succ n ih =>
    intro s w hn hw hpre
    match s with
    | [] =>
      rw [collapse_nil] at hpre
      rw [isPrefixOf_nil_inv hpre]
      rfl
    | c :: rest =>
      simp only [List.length_cons] at hn
      by_cases hc : c = '\n'
      · subst hc
        rw [collapse_cons_nl] at hpre
        have hcons : ∃ Y, (if 3 ≤ (rest.takeWhile (fun x => x = '\n')).length + 1 then
            ['\n', '\n']
          else
            List.replicate ((rest.takeWhile (fun x => x = '\n')).length + 1) '\n') ++
            collapseNL (rest.dropWhile (fun x => x = '\n')) = '\n' :: Y := by
          split
          · exact ⟨_, rfl⟩
          · rw [List.replicate_succ, List.cons_append]
            exact ⟨_, rfl⟩
        obtain ⟨Y, hY⟩ := hcons
        rw [hY] at hpre
        rcases isPrefixOf_cons_inv hpre with rfl | ⟨w2, rfl, -⟩
        · rfl
        · exact absurd (List.mem_cons_self _ _) hw
      · rw [collapse_cons rest hc] at hpre
        rcases isPrefixOf_cons_inv hpre with rfl | ⟨w2, rfl, hw2⟩
        · rfl
        · exact isPrefixOf_cons_mk
            (ih rest w2 (by omega) (fun hm => hw (List.mem_cons_of_mem _ hm)) hw2)

theorem hasSubstr_lit_cons_ne {c : Char} (Y : List Char) (hc : c ≠ 'C') :
    hasSubstr litCommented (c :: Y) = hasSubstr litCommented Y := by
  simp only [hasSubstr]
  have : litCommented.isPrefixOf (c :: Y) = false := by
    simp only [litCommented, List.isPrefixOf, Bool.and_eq_false_iff]
    left
    simpa using fun h => hc h.symm
  rw [this, Bool.false_or]

theorem hasSubstr_lit_replicate_nl :
    ∀ (m : Nat) (Y : List Char),
      hasSubstr litCommented (List.replicate m '\n' ++ Y) = hasSubstr litCommented Y := by
  intro m
  induction m with
  | zero => intro Y; rfl
  | succ m ih =>
    intro Y
    rw [List.replicate_succ, List.cons_append, hasSubstr_lit_cons_ne _ (by decide), ih]

theorem collapse_no_cb :
    ∀ (n : Nat) (s : List Char), s.length ≤ n → hasSubstr litCommented s = false →
      hasSubstr litCommented (collapseNL s) = false := by
  intro n
  induction n with
  | zero =>
    intro s hn _
    have : s = [] := List.length_eq_zero.mp (Nat.le_zero.mp hn)
    subst this
    rfl
  | succ n ih =>
    intro s hn hno
    match s with
    | [] => rfl
    | c :: rest =>
      simp only [List.length_cons] at hn
      simp only [hasSubstr, Bool.or_eq_false_iff] at hno
      by_cases hc : c = '\n'
      · subst hc
        rw [collapse_cons_nl]
        have hrep : (if 3 ≤ (rest.takeWhile (fun x => x = '\n')).length + 1 then
            ['\n', '\n']
          else
            List.replicate ((rest.takeWhile (fun x => x = '\n')).length + 1) '\n') =
            List.replicate
              (if 3 ≤ (rest.takeWhile (fun x => x = '\n')).length + 1 then 2
               else (rest.takeWhile (fun x => x = '\n')).length + 1) '\n' := by
          split <;> rfl
        rw [hrep, hasSubstr_lit_replicate_nl]
        have hd := (List.dropWhile_suffix (l := rest) (fun x => decide (x = '\n'))).length_le
        exact ih _ (by omega) (hasSubstr_dropWhile_false hno.2)
      · rw [collapse_cons rest hc]
        have heq : c :: collapseNL rest = collapseNL (c :: rest) := (collapse_cons rest hc).symm
        simp only [hasSubstr, Bool.or_eq_false_iff]
        constructor
        · by_contra hpre
          rw [Bool.not_eq_false] at hpre
          rw [heq] at hpre
          have := prefix_collapse (c :: rest).length (c :: rest) litCommented le_rfl
            (by decide) hpre
          rw [this] at hno
          exact absurd hno.1 (by simp)
        · exact ih rest (by omega) hno.2

theorem no_cb_imp_no_marker {s : List Char}
    (h : hasSubstr litCommented s = false) : hasMarker s = false := by
  induction s with
  | nil => rfl
  | cons c rest ih =>
    simp only [hasSubstr, Bool.or_eq_false_iff] at h
    simp only [hasMarker, Bool.or_eq_false_iff]
    refine ⟨?_, ih h.2⟩
    unfold markerAt
    rw [h.1]
    rfl

/-- C1 (amended): for every input text in which each occurrence of
`Commented [` begins a full marker accepted by the removal pattern (non-empty
bracket content closed by `]`, then a colon and at least one same-line
character), the output of `_remove_inline_comments` contains no substring
matching the inline comment-marker pattern. -/
theorem strip_no_marker_of_goodTags (t : List Char) (h : goodTags t = true) :
    hasMarker (removeInlineComments t) = false := by
  have h1 : hasSubstr litCommented (subFullMarkers t) = false :=
    subFull_no_cb t.length t le_rfl h
  unfold removeInlineComments
  rw [subBare_id_of_no_cb h1]
  have h2 : hasSubstr litCommented (collapseNL (subFullMarkers t)) = false :=
    collapse_no_cb (subFullMarkers t).length _ le_rfl h1
  exact no_cb_imp_no_marker (hasSubstr_pystripL_false h2)

/-- C1 (counterexample): the claim as stated is false — stripping the input
`Commented Commented [X][Y]: t` removes the bare tag `Commented [X]` and
thereby splices the text into `Commented [Y]: t`, so the output does contain
a substring matching the inline comment-marker pattern. -/
theorem strip_marker_counterexample :
    removeInlineComments ("Commented Commented [X][Y]: t".toList) =
      "Commented [Y]: t".toList ∧
    hasMarker (removeInlineComments ("Commented Commented [X][Y]: t".toList)) = true := by
  constructor <;> decide

/-- Witness for C1 (amended): a concrete text whose only `Commented [`
occurrence is a well-formed full marker; the stripped output has no marker. -/
theorem strip_no_marker_witness :
    goodTags ("Intro\nCommented [AK1]: note here\nBody".toList) = true ∧
    hasMarker (removeInlineComments ("Intro\nCommented [AK1]: note here\nBody".toList)) = false :=
  ⟨by decide, strip_no_marker_of_goodTags _ (by decide)⟩

-- ### Characterisation of the blank-line collapse (claim C7)

theorem takeWhile_append_not_all {p : Char → Bool} {a : List Char} (b : List Char)
    (h : a.all p = false) : (a ++ b).takeWhile p = a.takeWhile p := by
  induction a with
  | nil => simp at h
  | cons c a2 ih =>
    rw [List.all_cons, Bool.and_eq_false_iff] at h
    rcases h with h | h
    · rw [List.cons_append, List.takeWhile_cons, List.takeWhile_cons, h]
      simp
    · by_cases hp : p c
      · rw [List.cons_append, List.takeWhile_cons_of_pos hp, List.takeWhile_cons_of_pos hp,
          ih h]
      · rw [List.cons_append, List.takeWhile_cons_of_neg hp, List.takeWhile_cons_of_neg hp]

theorem dropWhile_append_not_all {p : Char → Bool} {a : List Char} (b : List Char)
    (h : a.all p = false) : (a ++ b).dropWhile p = a.dropWhile p ++ b := by
  induction a with
  | nil => simp at h
  | cons c a2 ih =>
    rw [List.all_cons, Bool.and_eq_false_iff] at h
    rcases h with h | h
    · rw [List.cons_append, List.dropWhile_cons, List.dropWhile_cons, h]
      simp
    · by_cases hp : p c
      · rw [List.cons_append, List.dropWhile_cons_of_pos hp, List.dropWhile_cons_of_pos hp,
          ih h]
      · rw [List.cons_append, List.dropWhile_cons_of_neg hp, List.dropWhile_cons_of_neg hp]
        rfl

theorem takeWhile_replicate_nl (k : Nat) {b : List Char} (hb : b.head? ≠ some '\n') :
    (List.replicate k '\n' ++ b).takeWhile (fun x => x = '\n') = List.replicate k '\n' := by
  induction k with
  | zero =>
    simp only [List.replicate, List.nil_append]
    cases b with
    | nil => rfl
    | cons c rest =>
      simp only [List.head?_cons, ne_eq, Option.some.injEq] at hb
      exact List.takeWhile_cons_of_neg (by simpa using hb)
  | succ k ih =>
    rw [List.replicate_succ, List.cons_append, List.takeWhile_cons_of_pos (by simp), ih]

theorem dropWhile_replicate_nl (k : Nat) {b : List Char} (hb : b.head? ≠ some '\n') :
    (List.replicate k '\n' ++ b).dropWhile (fun x => x = '\n') = b := by
  induction k with
  | zero =>
    simp only [List.replicate, List.nil_append]
    cases b with
    | nil => rfl
    | cons c rest =>
      simp only [List.head?_cons, ne_eq, Option.some.injEq] at hb
      exact List.dropWhile_cons_of_neg (by simpa using hb)
  | succ k ih =>
    rw [List.replicate_succ, List.cons_append, List.dropWhile_cons_of_pos (by simp), ih]

theorem all_nl_getLast {l : List Char} (hne : l ≠ [])
    (hall : l.all (fun x => x = '\n') = true) : l.getLast? = some '\n' := by
  induction l with
  | nil => exact absurd rfl hne
  | cons c rest ih =>
    rw [List.all_cons, Bool.and_eq_true] at hall
    cases rest with
    | nil =>
      have : c = '\n' := by simpa using hall.1
      rw [this]
      rfl
    | cons d rest2 =>
      rw [List.getLast?_cons_cons]
      exact ih (by simp) hall.2

theorem collapse_run :
    ∀ (n : Nat) (a : List Char) (k : Nat) (b : List Char), a.length ≤ n →
      a.getLast? ≠ some '\n' → b.head? ≠ some '\n' →
      collapseNL (a ++ List.replicate k '\n' ++ b) =
        collapseNL a ++ List.replicate (min k 2) '\n' ++ collapseNL b := by
  intro n
  induction n with
  | zero =>
    intro a k b hn ha hb
    have : a = [] := List.length_eq_zero.mp (Nat.le_zero.mp hn)
    subst this
    cases k with
    | zero => simp [collapse_nil]
    | succ k2 =>
      rw [List.nil_append, collapse_nil, List.nil_append, List.replicate_succ,
        List.cons_append, collapse_cons_nl, takeWhile_replicate_nl k2 hb,
        dropWhile_replicate_nl k2 hb, List.length_replicate]
      by_cases h3 : 3 ≤ k2 + 1
      · rw [if_pos h3]
        have : min (k2 + 1) 2 = 2 := by omega
        rw [this]
        rfl
      · rw [if_neg h3]
        have : min (k2 + 1) 2 = k2 + 1 := by omega
        rw [this]
  | succ n ih =>
    intro a k b hn ha hb
    match a with
    | [] => exact ih [] k b (by simp) ha hb
    | c :: a2 =>
      simp only [List.length_cons] at hn
      by_cases hc : c = '\n'
      · subst hc
        have ha2ne : a2 ≠ [] := by
          intro h
          subst h
          exact ha rfl
        have ha2last : a2.getLast? ≠ some '\n' := by
          cases a2 with
          | nil => exact absurd rfl ha2ne
          | cons d rest2 => rw [← List.getLast?_cons_cons (a := '\n')]; exact ha
        have hallf : a2.all (fun x => x = '\n') = false := by
          by_contra hcon
          rw [Bool.not_eq_false] at hcon
          exact ha2last (all_nl_getLast ha2ne hcon)
        have ha3ne : a2.dropWhile (fun x => x = '\n') ≠ [] := by
          intro h
          rw [List.dropWhile_eq_nil_iff] at h
          have h2 := List.all_eq_true.mpr h
          rw [hallf] at h2
          simp at h2
        have ha3last : (a2.dropWhile (fun x => x = '\n')).getLast? = a2.getLast? := by
          conv_rhs => rw [← List.takeWhile_append_dropWhile (p := fun x => x = '\n') (l := a2)]
          rw [List.getLast?_append_of_ne_nil _ ha3ne]
        rw [List.cons_append, List.cons_append, collapse_cons_nl,
          List.append_assoc a2 (List.replicate k '\n') b,
          takeWhile_append_not_all _ hallf, dropWhile_append_not_all _ hallf,
          ← List.append_assoc (a2.dropWhile (fun x => x = '\n')) (List.replicate k '\n') b]
        have hd3 := (List.dropWhile_suffix (l := a2) (fun x => decide (x = '\n'))).length_le
        rw [ih (a2.dropWhile (fun x => x = '\n')) k b (by omega)
            (by rw [ha3last]; exact ha2last) hb,
          collapse_cons_nl]
        simp only [List.append_assoc]
      · rw [List.cons_append, List.cons_append, collapse_cons _ hc, collapse_cons _ hc,
          List.cons_append]
        have ha2last : a2.getLast? ≠ some '\n' := by
          cases a2 with
          | nil => simp
          | cons d rest2 => rw [← List.getLast?_cons_cons (a := c)]; exact ha
        rw [ih a2 k b (by omega) ha2last hb]
        simp [List.append_assoc]

/-- C7: after the two marker-removal passes, `_remove_inline_comments` rewrites
every maximal run of `k` consecutive newline characters to `min k 2` newlines —
i.e. runs of three or more newlines ("3+ consecutive blank lines") collapse to
exactly two newlines ("one blank line") while shorter runs are unchanged — and
finally strips leading and trailing whitespace from the result. -/
theorem strip_collapse_blank_runs :
    (∀ (a : List Char) (k : Nat) (b : List Char),
      a.getLast? ≠ some '\n' → b.head? ≠ some '\n' →
      collapseNL (a ++ List.replicate k '\n' ++ b) =
        collapseNL a ++ List.replicate (min k 2) '\n' ++ collapseNL b) ∧
    (∀ t : List Char,
      removeInlineComments t = pystripL (collapseNL (subBareTags (subFullMarkers t)))) :=
  ⟨fun a k b h1 h2 => collapse_run a.length a k b le_rfl h1 h2, fun _ => rfl⟩

/-- Witness for C7: a run of four newlines between `x` and `y` collapses to
exactly two, by direct application of the theorem. -/
theorem strip_collapse_blank_runs_witness :
    collapseNL ("x".toList ++ List.replicate 4 '\n' ++ "y".toList) =
      collapseNL "x".toList ++ List.replicate (min 4 2) '\n' ++ collapseNL "y".toList :=
  strip_collapse_blank_runs.1 "x".toList 4 "y".toList (by decide) (by decide)

-- ### Section splitting (`_split_into_sections`)

/-- Python `text.split('\n')`. -/
def splitLinesAux : List Char → List Char → List (List Char)
  | [], acc => [acc.reverse]
  | c :: rest, acc =>
      if c = '\n' then acc.reverse :: splitLinesAux rest []
      else splitLinesAux rest (c :: acc)

def splitLines (s : List Char) : List (List Char) := splitLinesAux s []

/-- Python `text.split('\n\n')` : split on the two-character literal, leftmost,
non-overlapping. -/
def splitNNAux : List Char → List Char → List (List Char)
  | [], acc => [acc.reverse]
  | '\n' :: '\n' :: rest, acc => acc.reverse :: splitNNAux rest []
  | c :: rest, acc => splitNNAux rest (c :: acc)

def splitOnNN (s : List Char) : List (List Char) := splitNNAux s []

/-- The comprehension `[s.strip() for s in pieces if s.strip()]`. -/
def stripFilter (l : List (List Char)) : List (List Char) :=
  (l.map pystripL).filter (fun s => !s.isEmpty)

/-- Zero-width boundary of strategy 2, `(?=^•\s)` with MULTILINE: a line
starting with the bullet glyph followed by a whitespace character. -/
def bulletBound : List Char → Bool
  | '•' :: d :: _ => wsChar d
  | _ => false

/-- Zero-width boundary of strategy 3, `(?=^[A-Z][^\n]{0,80}$)` with
MULTILINE: a line of at most 81 characters starting with an upper-case
letter. -/
def headBound : List Char → Bool
  | c :: rest => c.isUpper && (rest.takeWhile (fun x => x ≠ '\n')).length ≤ 80
  | [] => false

/-- Python `re.split` on a zero-width line-anchored lookahead: walk the text with a
line-start flag, starting a new piece at every boundary position. -/
def splitGo (bnd : List Char → Bool) : List Char → List Char → Bool → List (List Char)
  | [], acc, _ => [acc.reverse]
  | c :: rest, acc, ls =>
      if ls && bnd (c :: rest) then acc.reverse :: splitGo bnd rest [c] (c = '\n')
      else splitGo bnd rest (c :: acc) (c = '\n')

def splitAtBounds (bnd : List Char → Bool) (s : List Char) : List (List Char) :=
  splitGo bnd s [] true

/-- The three-tier cascade of `_split_into_sections`, before the final
fallback: blank-line split, then bullet split, then heading split, each tier
used only when the previous one yields at most two sections. -/
def sectionsCascade (text : List Char) : List (List Char) :=
  let s1 := stripFilter (splitOnNN text)
  let s2 := if s1.length ≤ 2 then stripFilter (splitAtBounds bulletBound text) else s1
  if s2.length ≤ 2 then stripFilter (splitAtBounds headBound text) else s2

/-- Python `_split_into_sections`: the cascade, or the whole text as one section when
the cascade produces nothing. -/
def splitIntoSections (text : List Char) : List (List Char) :=
  if (sectionsCascade text).isEmpty then [text] else sectionsCascade text

/-- C5: for every non-empty input text, `_split_into_sections` returns a
non-empty list of sections, and when the three cascading strategies all
produce zero non-empty sections the whole input text is returned as the
single section. -/
theorem split_sections_nonempty (text : List Char) (_h : text ≠ []) :
    splitIntoSections text ≠ [] ∧
    (sectionsCascade text = [] → splitIntoSections text = [text]) := by
  unfold splitIntoSections
  by_cases hc : (sectionsCascade text).isEmpty
  · rw [if_pos hc]
    exact ⟨by simp, fun _ => rfl⟩
  · rw [if_neg hc]
    refine ⟨by simpa [List.isEmpty_iff] using hc, fun h2 => ?_⟩
    rw [h2] at hc
    simp at hc

/-- Witness for C5: the splitter output on a concrete non-empty text is
non-empty. -/
theorem split_sections_nonempty_witness :
    splitIntoSections "hello".toList ≠ [] :=
  (split_sections_nonempty "hello".toList (by decide)).1

-- ### Content classification (`_classify_content`)

/-- Python `str.isupper`: at least one cased character, and no cased character
is lower-case (ASCII model). -/
def pyIsUpper (s : List Char) : Bool :=
  s.any (fun c => c.isAlpha) && s.all (fun c => !c.isLower)

/-- The stripped first non-blank line of the text, as computed by
`_classify_content` (`None` when every line is blank). -/
def firstNonBlank (text : List Char) : Option (List Char) :=
  (((splitLines text).filter (fun l => !(pystripL l).isEmpty)).head?).map pystripL

/-- Python `_classify_content`: ordered first-match cascade of heuristic rules. -/
def classifyContent (text : List Char) : List Char :=
  match firstNonBlank text with
  | none => "paragraph".toList
  | some fl =>
    if fl.length < 100 ∧ (pyIsUpper fl = true ∨ fl.getLast? = some ':') then
      "heading".toList
    else if hasSubstr "Field Name".toList fl = true ∨ hasSubstr "Field List".toList fl = true ∨
        hasSubstr "Description".toList fl = true ∨ hasSubstr "Data Type".toList fl = true then
      "field_list".toList
    else if ("•".toList.isPrefixOf fl = true ∨ "-".toList.isPrefixOf fl = true ∨
        "*".toList.isPrefixOf fl = true ∨ "◦".toList.isPrefixOf fl = true ∨
        "▪".toList.isPrefixOf fl = true) ∨
        (fl ≠ [] ∧ (fl.headD ' ').isDigit = true ∧ '.' ∈ fl.take 5) then
      "list_item".toList
    else if '\t' ∈ text ∨ 3 < text.count '|' then
      "table".toList
    else
      "paragraph".toList

/-- C3: `_classify_content` applies its rules in order with first match
winning: whenever the stripped first non-blank line is shorter than 100
characters and is entirely upper-case or ends with a colon, the section is
classified `heading` — regardless of tabs or pipe characters elsewhere in the
section. -/
theorem classify_heading_first (text fl : List Char)
    (h1 : firstNonBlank text = some fl) (h2 : fl.length < 100)
    (h3 : pyIsUpper fl = true ∨ fl.getLast? = some ':') :
    classifyContent text = "heading".toList := by
  unfold classifyContent
  rw [h1]
  dsimp only
  rw [if_pos ⟨h2, h3⟩]

/-- Witness for C3: a short all-caps line containing a tab classifies as
`heading`, not `table`. -/
theorem classify_heading_first_witness :
    firstNonBlank "HEAD\tING".toList = some "HEAD\tING".toList ∧
    '\t' ∈ "HEAD\tING".toList ∧
    classifyContent "HEAD\tING".toList = "heading".toList :=
  ⟨by decide, by decide,
    classify_heading_first "HEAD\tING".toList "HEAD\tING".toList (by decide) (by decide)
      (Or.inl (by decide))⟩

-- ### Inline comment scanner (`_extract_inline_comments`)

/-- Python `' '.join(s.split())` : collapse internal whitespace runs to single
spaces and trim. -/
def splitWsAux (c : Char) (acc : List (List Char)) : List (List Char) :=
  if wsChar c then [] :: acc
  else
    match acc with
    | [] => [[c]]
    | w :: ws => (c :: w) :: ws

def pySplitWs (s : List Char) : List (List Char) :=
  (s.foldr splitWsAux []).filter (fun w => !w.isEmpty)

def collapseWs (s : List Char) : List Char := List.intercalate [' '] (pySplitWs s)

/-- Python `re.match(r'Commented \[([^\]]+)\]:\s*(.*)', line)` : on success returns
the bracketed author tag (group 1) and the trailing text with leading
whitespace removed (group 2). -/
def matchComment (line : List Char) : Option (List Char × List Char) :=
  if litCommented.isPrefixOf line then
    match (line.drop litCommented.length).takeWhile (fun c => c ≠ ']'),
          (line.drop litCommented.length).dropWhile (fun c => c ≠ ']') with
    | tag@(_ :: _), ']' :: ':' :: r3 => some (tag, r3.dropWhile wsChar)
    | _, _ => none
  else none

/-- Structural-prefix literals of the lookahead stop condition. -/
def structStarts (nl : List Char) : Bool :=
  "•".toList.isPrefixOf nl || "o ".toList.isPrefixOf nl || "▪".toList.isPrefixOf nl ||
  "Field Name".toList.isPrefixOf nl || "Name ".toList.isPrefixOf nl ||
  "Is Active".toList.isPrefixOf nl

/-- Prefixes tested on the line after a blank line in the stop condition. -/
def bulletFieldStart (nl : List Char) : Bool :=
  "•".toList.isPrefixOf nl || "Field".toList.isPrefixOf nl

/-- Prefixes that end continuation in the accept branch of the lookahead. -/
def contSkip (nl : List Char) : Bool :=
  "User Story".toList.isPrefixOf nl || "Campaign Details".toList.isPrefixOf nl

/-- The lookahead stop condition: a new marker, a structural prefix, or a
blank line whose successor starts with a bullet glyph or `Field`. -/
def stopLook (lines : List (List Char)) (j : Nat) (nl : List Char) : Bool :=
  litCommented.isPrefixOf nl || structStarts nl ||
  (nl.isEmpty && decide (j + 1 < lines.length) &&
    bulletFieldStart (pystripL (lines.getD (j + 1) [])))

/-- The multi-line lookahead loop (index `j`, accumulated comment text `t`). -/
def lookAux : Nat → List (List Char) → Nat → List Char → List Char × Nat
  | 0, _, j, t => (t, j)
  | fuel + 1, lines, j, t =>
      if j < lines.length then
        let nl := pystripL (lines.getD j [])
        if stopLook lines j nl then (t, j)
        else if !nl.isEmpty && !contSkip nl then lookAux fuel lines (j + 1) (t ++ ' ' :: nl)
        else (t, j)
      else (t, j)

/-- One marker-line step of the scanner: on a marker match at line `i`, the
author tag, the collapsed accumulated comment text, and the resume index. -/
def markerResult (lines : List (List Char)) (i : Nat) :
    Option (List Char × List Char × Nat) :=
  match matchComment (lines.getD i []) with
  | some (tag, gr2) =>
      some (tag, collapseWs ((lookAux lines.length lines (i + 1) (pystripL gr2)).1),
        (lookAux lines.length lines (i + 1) (pystripL gr2)).2)
  | none => none

/-- The index at which the outer scan loop resumes after processing line `i`. -/
def nextIndex (lines : List (List Char)) (i : Nat) : Nat :=
  match markerResult lines i with
  | some r => r.2.2
  | none => i + 1

/-- A comment record (shared by native annotations and inline comments). -/
structure Comment where
  id : Nat
  page : Nat
  ctype : List Char
  author : List Char
  text : List Char
  subject : List Char
  color : Option (List Char)
deriving DecidableEq

def mkInline (pn idx : Nat) (tag ct : List Char) : Comment :=
  ⟨idx, pn, "InlineComment".toList, tag, ct, "Word Comment".toList, none⟩

/-- The minimum-length filter: the record is appended only when the collapsed
comment text has at least 10 characters; its id is the next position in the
page-local inline sequence. -/
def stepRecords (pn : Nat) (acc : List Comment) (tag ct : List Char) : List Comment :=
  if 10 ≤ ct.length then acc ++ [mkInline pn (acc.length + 1) tag ct] else acc

/-- The outer scan loop of `_extract_inline_comments` (fuel-indexed; the
index strictly increases each iteration, so `lines.length + 1` fuel is
enough). -/
def scanAux (lines : List (List Char)) (pn : Nat) : Nat → Nat → List Comment → List Comment
  | 0, _, acc => acc
  | fuel + 1, i, acc =>
      if i < lines.length then
        match markerResult lines i with
        | some (tag, ct, j) => scanAux lines pn fuel j (stepRecords pn acc tag ct)
        | none => scanAux lines pn fuel (i + 1) acc
      else acc

/-- Python `_extract_inline_comments` for one page, on the page text split into
lines. -/
def scanComments (lines : List (List Char)) (pn : Nat) : List Comment :=
  scanAux lines pn (lines.length + 1) 0 []

theorem scanAux_succ_lt {lines : List (List Char)} {pn fuel i : Nat} {acc : List Comment}
    (hi : i < lines.length) :
    scanAux lines pn (fuel + 1) i acc =
      match markerResult lines i with
      | some (tag, ct, j) => scanAux lines pn fuel j (stepRecords pn acc tag ct)
      | none => scanAux lines pn fuel (i + 1) acc := by
  simp only [scanAux, if_pos hi]

theorem scanAux_succ_ge {lines : List (List Char)} {pn fuel i : Nat} {acc : List Comment}
    (hi : ¬ i < lines.length) :
    scanAux lines pn (fuel + 1) i acc = acc := by
  simp only [scanAux, if_neg hi]

theorem lookAux_ge : ∀ (fuel : Nat) (lines : List (List Char)) (j : Nat) (t : List Char),
    j ≤ (lookAux fuel lines j t).2 := by
  intro fuel
  induction fuel with
  | zero => intro lines j t; exact le_rfl
  | succ fuel ih =>
    intro lines j t
    simp only [lookAux]
    by_cases h1 : j < lines.length
    · rw [if_pos h1]
      by_cases h2 : stopLook lines j (pystripL (lines.getD j []))
      · rw [if_pos h2]
      · rw [if_neg h2]
        by_cases h3 : !(pystripL (lines.getD j [])).isEmpty &&
            !contSkip (pystripL (lines.getD j []))
        · rw [if_pos h3]
          exact Nat.le_of_succ_le (ih lines (j + 1) _)
        · rw [if_neg h3]
    · rw [if_neg h1]

/-- C10: the inline comment scan terminates — after processing line `i` the
outer loop resumes at a strictly larger index (on a marker match it resumes at
the lookahead's final index `j ≥ i + 1`, and the lookahead itself only ever
increments `j`; otherwise it resumes at `i + 1`), so the loop runs at most as
many iterations as there are lines. -/
theorem scan_index_increases :
    (∀ (lines : List (List Char)) (i : Nat), i < nextIndex lines i) ∧
    (∀ (fuel : Nat) (lines : List (List Char)) (j : Nat) (t : List Char),
      j ≤ (lookAux fuel lines j t).2) := by
  refine ⟨?_, lookAux_ge⟩
  intro lines i
  unfold nextIndex
  cases hm : markerResult lines i with
  | none => exact Nat.lt_succ_self i
  | some r =>
    unfold markerResult at hm
    cases hmc : matchComment (lines.getD i []) with
    | none => rw [hmc] at hm; simp at hm
    | some p =>
      obtain ⟨tag, gr2⟩ := p
      rw [hmc] at hm
      simp only [Option.some.injEq] at hm
      rw [← hm]
      exact Nat.lt_of_succ_le (lookAux_ge lines.length lines (i + 1) (pystripL gr2))

/-- C2: on the text `Commented [AK1]: Need clarity here about scope` followed
by a blank line and then `• Next item`, the scanner emits exactly one record
with author `AK1` and text `Need clarity here about scope`; the lookahead
stops at the blank line (resume index `1 = i + 1`), so the blank-line-then-
bullet stop condition fires before any continuation line is appended and the
bullet line is not consumed. -/
theorem scanner_blank_bullet_stop :
    markerResult ["Commented [AK1]: Need clarity here about scope".toList, [],
      "• Next item".toList] 0 =
      some ("AK1".toList, "Need clarity here about scope".toList, 1) ∧
    scanComments ["Commented [AK1]: Need clarity here about scope".toList, [],
      "• Next item".toList] 1 =
      [⟨1, 1, "InlineComment".toList, "AK1".toList,
        "Need clarity here about scope".toList, "Word Comment".toList, none⟩] := by
  constructor <;> decide

theorem scan_single_line {pn : Nat} {line tag gr2 : List Char}
    (h : matchComment line = some (tag, gr2)) :
    scanComments [line] pn = stepRecords pn [] tag (collapseWs (pystripL gr2)) := by
  have h0 : markerResult [line] 0 = some (tag, collapseWs (pystripL gr2), 1) := by
    unfold markerResult
    rw [show ([line] : List (List Char)).getD 0 [] = line from rfl, h]
    rfl
  show scanAux [line] pn 2 0 [] = _
  rw [scanAux_succ_lt (by simp), h0]
  exact scanAux_succ_ge (by simp)

/-- C6: the scanner emits a record for a matched marker if and only if the
accumulated comment text, after collapsing internal whitespace runs and
trimming, has length at least 10; in particular a marker line at end of input
whose trailing text trims to fewer than 10 characters yields zero records. -/
theorem scanner_min_length_filter :
    (∀ (pn : Nat) (acc : List Comment) (tag ct : List Char),
      stepRecords pn acc tag ct ≠ acc ↔ 10 ≤ ct.length) ∧
    (∀ (pn : Nat) (line tag gr2 : List Char), matchComment line = some (tag, gr2) →
      scanComments [line] pn = stepRecords pn [] tag (collapseWs (pystripL gr2))) ∧
    (∀ (pn : Nat) (line tag gr2 : List Char), matchComment line = some (tag, gr2) →
      (collapseWs (pystripL gr2)).length < 10 → scanComments [line] pn = []) := by
  refine ⟨?_, fun pn line tag gr2 h => scan_single_line h, ?_⟩
  · intro pn acc tag ct
    constructor
    · intro hne
      by_contra hlt
      push_neg at hlt
      unfold stepRecords at hne
      rw [if_neg (by omega)] at hne
      exact hne rfl
    · intro hge heq
      unfold stepRecords at heq
      rw [if_pos hge] at heq
      have := congrArg List.length heq
      simp at this
  · intro pn line tag gr2 h hlt
    rw [scan_single_line h]
    unfold stepRecords
    rw [if_neg (by omega)]

/-- Witness for C6: a marker line at end of input with short trailing text
(`tiny`, 4 characters after trimming) yields zero records. -/
theorem scanner_min_length_filter_witness :
    matchComment "Commented [AB]: tiny".toList = some ("AB".toList, "tiny".toList) ∧
    scanComments ["Commented [AB]: tiny".toList] 1 = [] :=
  ⟨by decide,
    scanner_min_length_filter.2.2 1 "Commented [AB]: tiny".toList "AB".toList
      "tiny".toList (by decide) (by decide)⟩

-- ### Native annotation normalisation (`_get_page_annotations` and helpers)

/-- A native PDF annotation object as seen by the parser: the optional
`/Subtype`, `/T`, `/Contents`, `/Subj` and `/C` fields. -/
structure NativeAnnot where
  subtype : Option (List Char)
  author : Option (List Char)
  contents : Option (List Char)
  subj : Option (List Char)
  color : Option (List ℚ)
deriving DecidableEq

/-- Python `_get_annotation_type`: the subtype string with `/` removed, else
`Unknown`. -/
def annType (a : NativeAnnot) : List Char :=
  match a.subtype with
  | some s => s.filter (fun c => c ≠ '/')
  | none => "Unknown".toList

/-- Python `_get_annotation_author`: the `/T` field, else `Unknown`. -/
def annAuthor (a : NativeAnnot) : List Char :=
  match a.author with
  | some s => s
  | none => "Unknown".toList

/-- Python `_get_annotation_text`: the `/Contents` field, else the empty string. -/
def annText (a : NativeAnnot) : List Char :=
  match a.contents with
  | some s => s
  | none => []

/-- Python `_get_annotation_subject`: the `/Subj` field, else the empty string. -/
def annSubject (a : NativeAnnot) : List Char :=
  match a.subj with
  | some s => s
  | none => []

/-- Python `int(·)` on a rational: truncation toward zero. -/
def pyTruncInt (q : ℚ) : ℤ := if 0 ≤ q then ⌊q⌋ else -⌊-q⌋

/-- Python 02x formatting of a natural number: lower-case hex, zero-padded to
width 2. -/
def py02x (n : Nat) : List Char :=
  List.replicate (2 - (Nat.toDigits 16 n).length) '0' ++ Nat.toDigits 16 n

/-- Python 02x formatting of an integer (negative values carry a sign). -/
def pyFmt02x (i : ℤ) : List Char :=
  if 0 ≤ i then py02x i.toNat
  else '-' :: (List.replicate (1 - (Nat.toDigits 16 (-i).toNat).length) '0' ++
    Nat.toDigits 16 (-i).toNat)

/-- Python `_get_annotation_color`: a 3-component color array maps to `#rrggbb`
(each component scaled by 255 and truncated); anything else maps to `None`. -/
def annColor (a : NativeAnnot) : Option (List Char) :=
  match a.color with
  | some [r, g, b] =>
      some ('#' :: (pyFmt02x (pyTruncInt (r * 255)) ++ pyFmt02x (pyTruncInt (g * 255)) ++
        pyFmt02x (pyTruncInt (b * 255))))
  | _ => none

/-- C8: the color conversion maps a 3-component array with components in the
0–1 range to `#rrggbb` by scaling each component by 255, truncating to
integer, and formatting as 2-digit lower-case hex; concretely
`[1.0, 1.0, 0.0]` maps to `#ffff00`, and an absent color field maps to
`None`. -/
theorem annColor_formula (a : NativeAnnot) (r g b : ℚ) (hc : a.color = some [r, g, b])
    (hr0 : 0 ≤ r) (hg0 : 0 ≤ g) (hb0 : 0 ≤ b) :
    annColor a = some ('#' :: (py02x (⌊r * 255⌋).toNat ++ py02x (⌊g * 255⌋).toNat ++
      py02x (⌊b * 255⌋).toNat)) := by
  unfold annColor
  rw [hc]
  dsimp only
  have e : ∀ q : ℚ, 0 ≤ q → pyFmt02x (pyTruncInt q) = py02x (⌊q⌋).toNat := by
    intro q hq
    unfold pyTruncInt pyFmt02x
    rw [if_pos hq, if_pos (Int.floor_nonneg.mpr hq)]
  rw [e (r * 255) (mul_nonneg hr0 (by norm_num)),
    e (g * 255) (mul_nonneg hg0 (by norm_num)),
    e (b * 255) (mul_nonneg hb0 (by norm_num))]

theorem annot_color_hex :
    (∀ (a : NativeAnnot) (r g b : ℚ), a.color = some [r, g, b] →
      0 ≤ r → r ≤ 1 → 0 ≤ g → g ≤ 1 → 0 ≤ b → b ≤ 1 →
      annColor a = some ('#' :: (py02x (⌊r * 255⌋).toNat ++ py02x (⌊g * 255⌋).toNat ++
        py02x (⌊b * 255⌋).toNat))) ∧
    (∀ a : NativeAnnot, a.color = some [1, 1, 0] →
      annColor a = some "#ffff00".toList) ∧
    (∀ a : NativeAnnot, a.color = none → annColor a = none) := by
  refine ⟨fun a r g b hc h0 _ h2 _ h4 _ => annColor_formula a r g b hc h0 h2 h4, ?_, ?_⟩
  · intro a hc
    rw [annColor_formula a 1 1 0 hc (by norm_num) (by norm_num) (by norm_num),
      show ((1 : ℚ) * 255) = ((255 : ℤ) : ℚ) by norm_num,
      show ((0 : ℚ) * 255) = ((0 : ℤ) : ℚ) by norm_num,
      Int.floor_intCast, Int.floor_intCast]
    decide
  · intro a hc
    unfold annColor
    rw [hc]

/-- Witness for C8: the concrete yellow color array and an absent color. -/
theorem annot_color_hex_witness :
    annColor ⟨none, none, none, none, some [1, 1, 0]⟩ = some "#ffff00".toList ∧
    annColor ⟨none, none, none, none, none⟩ = none :=
  ⟨annot_color_hex.2.1 ⟨none, none, none, none, some [1, 1, 0]⟩ rfl,
    annot_color_hex.2.2 ⟨none, none, none, none, none⟩ rfl⟩

-- ### Per-page comment assembly (native annotations first, then inline)

/-- The content filter of `_get_page_annotations`: keep a record only when its
text or subject is non-empty. -/
def keepAnnot (a : NativeAnnot) : Bool :=
  !(annText a).isEmpty || !(annSubject a).isEmpty

/-- The record built for one native annotation (id is the 1-based enumeration
index in the page's raw annotation array). -/
def normalizeAnnot (a : NativeAnnot) (idx pn : Nat) : Comment :=
  ⟨idx, pn, annType a, annAuthor a, annText a, annSubject a, annColor a⟩

/-- Python `_get_page_annotations`: enumerate from `idx`, filter by content. -/
def pageAnnotsAux : List NativeAnnot → Nat → Nat → List Comment
  | [], _, _ => []
  | a :: rest, idx, pn =>
      (if keepAnnot a then [normalizeAnnot a idx pn] else []) ++
      pageAnnotsAux rest (idx + 1) pn

def pageAnnotRecords (annots : List NativeAnnot) (pn : Nat) : List Comment :=
  pageAnnotsAux annots 1 pn

/-- The 1-based positions (enumeration indices) of the annotations that pass
the content filter. -/
def keptIds : List NativeAnnot → Nat → List Nat
  | [], _ => []
  | a :: rest, idx => (if keepAnnot a then [idx] else []) ++ keptIds rest (idx + 1)

/-- The inline-comment records contributed by `_extract_inline_comments` for a
page (skipped when the page has no text). -/
def inlineRecords (textOpt : Option (List Char)) (pn : Nat) : List Comment :=
  match textOpt with
  | some t => if t.isEmpty then [] else scanComments (splitLines t) pn
  | none => []

/-- A page's final comment list: native-annotation records first, then inline
comment records. -/
def pageComments (annots : List NativeAnnot) (textOpt : Option (List Char))
    (pn : Nat) : List Comment :=
  pageAnnotRecords annots pn ++ inlineRecords textOpt pn

theorem pageAnnotsAux_ids :
    ∀ (annots : List NativeAnnot) (idx pn : Nat),
      (pageAnnotsAux annots idx pn).map Comment.id = keptIds annots idx := by
  intro annots
  induction annots with
  | nil => intro idx pn; rfl
  | cons a rest ih =>
    intro idx pn
    simp only [pageAnnotsAux, keptIds, List.map_append, ih]
    by_cases hk : keepAnnot a
    · rw [if_pos hk, if_pos hk]
      rfl
    · rw [if_neg hk, if_neg hk]
      rfl

theorem map_id_stepRecords {pn : Nat} {acc : List Comment} {tag ct : List Char} :
    (stepRecords pn acc tag ct).map Comment.id =
      if 10 ≤ ct.length then acc.map Comment.id ++ [acc.length + 1]
      else acc.map Comment.id := by
  unfold stepRecords
  split
  · simp [mkInline]
  · rfl

theorem scanAux_ids :
    ∀ (fuel : Nat) (lines : List (List Char)) (pn i : Nat) (acc : List Comment),
      acc.map Comment.id = List.range' 1 acc.length →
      (scanAux lines pn fuel i acc).map Comment.id =
        List.range' 1 (scanAux lines pn fuel i acc).length := by
  intro fuel
  induction fuel with
  | zero => intro lines pn i acc hacc; exact hacc
  | succ fuel ih =>
    intro lines pn i acc hacc
    by_cases hi : i < lines.length
    · rw [scanAux_succ_lt hi]
      cases hm : markerResult lines i with
      | none => exact ih lines pn (i + 1) acc hacc
      | some r =>
        obtain ⟨tag, ct, j⟩ := r
        refine ih lines pn j (stepRecords pn acc tag ct) ?_
        rw [map_id_stepRecords]
        by_cases hl : 10 ≤ ct.length
        · rw [if_pos hl, hacc]
          unfold stepRecords
          rw [if_pos hl]
          simp only [List.length_append, List.length_cons, List.length_nil]
          rw [List.range'_concat]
          simp [Nat.add_comm]
        · rw [if_neg hl, hacc]
          unfold stepRecords
          rw [if_neg hl]
    · rw [scanAux_succ_ge hi]
      exact hacc

theorem scanComments_ids (lines : List (List Char)) (pn : Nat) :
    (scanComments lines pn).map Comment.id =
      List.range' 1 (scanComments lines pn).length :=
  scanAux_ids (lines.length + 1) lines pn 0 [] rfl

/-- C9 (amended): in every page's merged comment list the native-annotation
records come first and the inline-comment records second; inline ids are an
independent 1-based contiguous sequence (they do not continue the native id
sequence); native ids are the 1-based enumeration positions of the kept
annotations in the page's raw annotation array (so they need not start at 1
when a leading annotation is filtered out); and when the first native
annotation passes the content filter and inline comments exist, the id 1
occurs in both sub-sequences, so ids repeat in the merged list. -/
theorem merged_ids_amended :
    (∀ (annots : List NativeAnnot) (textOpt : Option (List Char)) (pn : Nat),
      pageComments annots textOpt pn =
        pageAnnotRecords annots pn ++ inlineRecords textOpt pn) ∧
    (∀ (annots : List NativeAnnot) (pn : Nat),
      (pageAnnotRecords annots pn).map Comment.id = keptIds annots 1) ∧
    (∀ (lines : List (List Char)) (pn : Nat),
      (scanComments lines pn).map Comment.id =
        List.range' 1 (scanComments lines pn).length) ∧
    (∀ (a : NativeAnnot) (annots : List NativeAnnot) (textOpt : Option (List Char))
        (pn : Nat), keepAnnot a = true → inlineRecords textOpt pn ≠ [] →
      (∃ c1 ∈ pageAnnotRecords (a :: annots) pn, c1.id = 1) ∧
      (∃ c2 ∈ inlineRecords textOpt pn, c2.id = 1)) := by
  refine ⟨fun _ _ _ => rfl, fun annots pn => pageAnnotsAux_ids annots 1 pn,
    scanComments_ids, ?_⟩
  intro a annots textOpt pn hk hne
  constructor
  · refine ⟨normalizeAnnot a 1 pn, ?_, rfl⟩
    unfold pageAnnotRecords pageAnnotsAux
    rw [if_pos hk]
    simp
  · have hids : ∃ lines, inlineRecords textOpt pn = scanComments lines pn := by
      unfold inlineRecords at hne ⊢
      match textOpt with
      | none => exact absurd rfl hne
      | some t =>
        dsimp only at hne ⊢
        by_cases he : t.isEmpty
        · rw [if_pos he] at hne
          exact absurd rfl hne
        · rw [if_neg he]
          exact ⟨splitLines t, rfl⟩
    obtain ⟨lines, hl⟩ := hids
    rw [hl] at hne ⊢
    have hmap := scanComments_ids lines pn
    have hlen : 1 ≤ (scanComments lines pn).length := by
      rcases hcl : scanComments lines pn with _ | ⟨c, cs⟩
      · exact absurd hcl hne
      · simp
    have h1mem : 1 ∈ (scanComments lines pn).map Comment.id := by
      rw [hmap]
      rw [List.mem_range'_1]
      omega
    obtain ⟨c2, hc2mem, hc2id⟩ := List.mem_map.mp h1mem
    exact ⟨c2, hc2mem, hc2id⟩

/-- C9 (counterexample): with a first native annotation that is filtered out,
a second that is kept, and one inline comment, both sources are non-empty but
the native sub-sequence starts at id 2 (its enumeration position) and the
merged list's ids `[2, 1]` are pairwise distinct — refuting both "each
sub-sequence starts at 1" and "ids are not unique when both sources are
non-empty". -/
theorem merged_ids_counterexample :
    pageAnnotRecords [⟨none, none, none, none, none⟩,
      ⟨some "Text".toList, some "AK".toList, some "hello".toList, none, none⟩] 1 ≠ [] ∧
    inlineRecords (some "Commented [AK1]: Need clarity here about scope".toList) 1 ≠ [] ∧
    (pageComments [⟨none, none, none, none, none⟩,
        ⟨some "Text".toList, some "AK".toList, some "hello".toList, none, none⟩]
      (some "Commented [AK1]: Need clarity here about scope".toList) 1).map Comment.id =
      [2, 1] ∧
    ((pageComments [⟨none, none, none, none, none⟩,
        ⟨some "Text".toList, some "AK".toList, some "hello".toList, none, none⟩]
      (some "Commented [AK1]: Need clarity here about scope".toList) 1).map
        Comment.id).Nodup := by
  refine ⟨by decide, by decide, by decide, by decide⟩

/-- Witness for C9 (amended): with a kept first annotation and a non-empty
inline source, id 1 appears in both sub-sequences. -/
theorem merged_ids_amended_witness :
    (∃ c1 ∈ pageAnnotRecords [⟨some "Text".toList, some "AK".toList,
      some "hello".toList, none, none⟩] 1, c1.id = 1) ∧
    (∃ c2 ∈ inlineRecords
      (some "Commented [AK1]: Need clarity here about scope".toList) 1, c2.id = 1) :=
  merged_ids_amended.2.2.2 ⟨some "Text".toList, some "AK".toList,
    some "hello".toList, none, none⟩ []
    (some "Commented [AK1]: Need clarity here about scope".toList) 1
    (by decide) (by decide)

-- ### Page-level extraction and the page-keyed maps

/-- A requirement block (`_parse_text_content` output element). -/
structure Req where
  id : Nat
  rtype : List Char
  text : List Char
  lineCount : Nat
deriving DecidableEq

/-- The enumerate-from-1 loop of `_parse_text_content`: blank sections are
skipped but still consume an id. -/
def buildReqs : List (List Char) → Nat → List Req
  | [], _ => []
  | s :: rest, idx =>
      (if (pystripL s).isEmpty then []
       else [⟨idx, classifyContent s, pystripL s, (splitLines s).length⟩]) ++
      buildReqs rest (idx + 1)

/-- Python `_parse_text_content`: strip inline comments, split into sections,
classify each non-blank section. -/
def parseTextContent (t : List Char) : List Req :=
  buildReqs (splitIntoSections (removeInlineComments t)) 1

/-- A document page as the parser sees it: optionally extractable text and the
raw native annotation array. -/
structure Page where
  text : Option (List Char)
  annots : List NativeAnnot

/-- Python page key: the literal `page_` followed by the decimal page number. -/
def pageKey (n : Nat) : List Char := "page_".toList ++ Nat.toDigits 10 n

/-- The OCR fallback branch of `_extract_requirements`: empty when OCR is
unavailable or recognises nothing. -/
def ocrReqs (ocrAvail : Bool) (ocrFn : Nat → List Char) (n : Nat) : List Req :=
  if ocrAvail then (if (ocrFn n).isEmpty then [] else parseTextContent (ocrFn n))
  else []

/-- One page of `_extract_requirements`: parse the native text when it strips
to something non-empty, otherwise fall back to OCR (or the empty list). -/
def pageReqs (ocrAvail : Bool) (ocrFn : Nat → List Char) (p : Page) (n : Nat) :
    List Req :=
  match p.text with
  | some t => if (pystripL t).isEmpty then ocrReqs ocrAvail ocrFn n
              else parseTextContent t
  | none => ocrReqs ocrAvail ocrFn n

/-- Python `_extract_requirements`: every enumerated page receives a `page_<n>`
entry. -/
def extractReqAux (ocrAvail : Bool) (ocrFn : Nat → List Char) :
    List Page → Nat → List (List Char × List Req)
  | [], _ => []
  | p :: rest, n =>
      (pageKey n, pageReqs ocrAvail ocrFn p n) :: extractReqAux ocrAvail ocrFn rest (n + 1)

def extractRequirements (ocrAvail : Bool) (ocrFn : Nat → List Char)
    (doc : List Page) : List (List Char × List Req) :=
  extractReqAux ocrAvail ocrFn doc 1

/-- Python `_extract_annotations` followed by `_extract_inline_comments`: every
enumerated page receives a `page_<n>` entry holding native records then
inline records. -/
def extractCommentsAux : List Page → Nat → List (List Char × List Comment)
  | [], _ => []
  | p :: rest, n =>
      (pageKey n, pageComments p.annots p.text n) :: extractCommentsAux rest (n + 1)

def extractComments (doc : List Page) : List (List Char × List Comment) :=
  extractCommentsAux doc 1

theorem extractReqAux_keys (ocrAvail : Bool) (ocrFn : Nat → List Char) :
    ∀ (doc : List Page) (n0 : Nat),
      (extractReqAux ocrAvail ocrFn doc n0).map Prod.fst =
        (List.range doc.length).map (fun k => pageKey (n0 + k)) := by
  intro doc
  induction doc with
  | nil => intro n0; rfl
  | cons p rest ih =>
    intro n0
    simp only [extractReqAux, List.map_cons, List.length_cons]
    rw [ih (n0 + 1), List.range_succ_eq_map, List.map_cons, List.map_map, Nat.add_zero]
    congr 1
    apply List.map_congr_left
    intro k _
    simp only [Function.comp_apply]
    congr 1
    omega

theorem extractCommentsAux_keys :
    ∀ (doc : List Page) (n0 : Nat),
      (extractCommentsAux doc n0).map Prod.fst =
        (List.range doc.length).map (fun k => pageKey (n0 + k)) := by
  intro doc
  induction doc with
  | nil => intro n0; rfl
  | cons p rest ih =>
    intro n0
    simp only [extractCommentsAux, List.map_cons, List.length_cons]
    rw [ih (n0 + 1), List.range_succ_eq_map, List.map_cons, List.map_map, Nat.add_zero]
    congr 1
    apply List.map_congr_left
    intro k _
    simp only [Function.comp_apply]
    congr 1
    omega

/-- The concrete three-page document of the claim: page 2 has no extractable
text. -/
def docThree : List Page :=
  [⟨some "First requirement text".toList, []⟩, ⟨none, []⟩,
   ⟨some "Third page text".toList, []⟩]

/-- C4: after a full parse every page key `page_<n>` (1-based, contiguous over
the page enumeration) is present in both the requirements map and the comments
map; concretely, for a three-page document whose page 2 has no extractable
text and with OCR unavailable, the requirements map has exactly the keys
`page_1`, `page_2`, `page_3` and maps `page_2` to the empty list. -/
theorem page_maps_complete :
    (∀ (ocrAvail : Bool) (ocrFn : Nat → List Char) (doc : List Page) (n : Nat),
      1 ≤ n → n ≤ doc.length →
      pageKey n ∈ (extractRequirements ocrAvail ocrFn doc).map Prod.fst ∧
      pageKey n ∈ (extractComments doc).map Prod.fst) ∧
    ((extractRequirements false (fun _ => []) docThree).map Prod.fst =
        [pageKey 1, pageKey 2, pageKey 3] ∧
      List.lookup (pageKey 2) (extractRequirements false (fun _ => []) docThree) =
        some [] ∧
      (extractComments docThree).map Prod.fst = [pageKey 1, pageKey 2, pageKey 3]) := by
  constructor
  · intro ocrAvail ocrFn doc n h1 h2
    constructor
    · rw [extractRequirements, extractReqAux_keys]
      refine List.mem_map.mpr ⟨n - 1, List.mem_range.mpr (by omega), ?_⟩
      congr 1
      omega
    · rw [extractComments, extractCommentsAux_keys]
      refine List.mem_map.mpr ⟨n - 1, List.mem_range.mpr (by omega), ?_⟩
      congr 1
      omega
  · refine ⟨by decide, by decide, by decide⟩

/-- Witness for C4: page 2 of the concrete document is present in both maps. -/
theorem page_maps_complete_witness :
    pageKey 2 ∈ (extractRequirements false (fun _ => []) docThree).map Prod.fst ∧
    pageKey 2 ∈ (extractComments docThree).map Prod.fst :=
  page_maps_complete.1 false (fun _ => []) docThree 2 (by decide) (by decide)
